import Mathlib

/-!
# Verification of the pkl-rs lexer core

Shallow embedding of the `pkl-lexer` crate:

* `source.rs` — the pointer-based `Source` cursor.  The three raw pointers
  `start`, `end`, `ptr` are embedded as offsets from `start`: the field
  `len` is `end - start`, the field `pos` is `ptr - start`, and the field
  `mem` gives the byte stored at each offset from `start`.  Offsets
  `≥ len` lie outside the buffer, so `mem` at such an offset models the
  arbitrary contents of adjacent process memory: whenever an operation's
  result depends on `mem` beyond `len`, the corresponding Rust code
  performs an out-of-bounds read.
* `token.rs` — `Span`, `TokenKind`, `Token`.  The Rust field `span.end` is
  named `stop` here because `end` is a reserved word in Lean.
* `identifier.rs` — `identifier_handler` and `quoted_identifier_handler`.
  These run over scan primitives (`read_byte`, `bump`, the lexer's `index`
  field and its synchronisation with the cursor) whose definitions live in
  the crate's `lib.rs`, which is not among the sources; following the
  spec's data model (one cursor position, no other mutable lexer state)
  `self.index` is identified with the cursor position, `read_byte` reads
  the byte at the scan position, `bump` consumes one byte, and the
  `is_at_end` check of the scan loops compares the scan position with the
  buffer length.
* `next_token` is not among the sources either; it is modelled from the
  spec's dispatch description (section 4.2).

Bytes are embedded as `Nat` (values 0..255 for real buffer contents).
`char` casts of bytes (`value as char` in `next_char`) preserve the
numeric value, so characters are likewise represented by their code.
-/

namespace PklLexer

/-- `u8::is_ascii_digit`: bytes 48-57. -/
def isAsciiDigit (b : Nat) : Bool :=
  decide (48 ≤ b) && decide (b ≤ 57)

/-- `u8::is_ascii_uppercase`: bytes 65-90. -/
def isAsciiUppercase (b : Nat) : Bool :=
  decide (65 ≤ b) && decide (b ≤ 90)

/-- `u8::is_ascii_lowercase`: bytes 97-122. -/
def isAsciiLowercase (b : Nat) : Bool :=
  decide (97 ≤ b) && decide (b ≤ 122)

/-- `u8::is_ascii_alphanumeric`: digit, uppercase or lowercase letter. -/
def isAsciiAlphanumeric (b : Nat) : Bool :=
  isAsciiDigit b || isAsciiUppercase b || isAsciiLowercase b

/-- `u8::is_ascii_alphabetic`: uppercase or lowercase letter. -/
def isAsciiAlphabetic (b : Nat) : Bool :=
  isAsciiUppercase b || isAsciiLowercase b

/-- The spec's `is_alphanumeric_or_underscore` predicate (section 4.2):
ASCII alphanumeric or the underscore byte 95. -/
def isAlnumOrUnderscore (b : Nat) : Bool :=
  isAsciiAlphanumeric b || b == 95

/-- The byte test of the identifier scan loop, `identifier.rs` line 8,
translated literally: `byte.is_ascii_alphanumeric() && (byte as char) != ' '
|| byte == b'_'` (Rust precedence: the conjunction binds tighter). -/
def identCond (b : Nat) : Bool :=
  (isAsciiAlphanumeric b && !(b == 32)) || b == 95

/-- Dispatch test for entering the identifier scan (spec section 4.2,
step 3): ASCII letter or underscore. -/
def isIdentStart (b : Nat) : Bool :=
  isAsciiAlphabetic b || b == 95

/-- `Source` from `source.rs`, with the raw pointers `start`, `end`, `ptr`
embedded as offsets from `start`: `len = end - start`, `pos = ptr - start`,
and `mem i` the byte stored at offset `i` from `start`.  Offsets `≥ len`
model memory outside the buffer (their contents are arbitrary). -/
structure Source where
  mem : Nat → Nat
  len : Nat
  pos : Nat

/-- Build a `Source` over the byte buffer `l`, cursor at the start;
memory beyond the buffer is filled with the byte `pad` (standing for
whatever happens to live there). -/
def Source.ofListPad (l : List Nat) (pad : Nat) : Source :=
  ⟨fun i => l.getD i pad, l.length, 0⟩

/-- Build a `Source` over the byte buffer `l`, cursor at the start. -/
def Source.ofList (l : List Nat) : Source :=
  Source.ofListPad l 0

/-- `Source::new` applied to a string: the buffer holds the string's
bytes (ASCII strings only are used here, so code points and bytes
coincide). -/
def Source.ofString (s : String) : Source :=
  Source.ofList (s.data.map Char.toNat)

/-- `Source::get_current_pos`: `ptr - start`. -/
def Source.get_current_pos (s : Source) : Nat :=
  s.pos

/-- `Source::advance(index)` from `source.rs` lines 75-79: reads the byte
at `start + index` (an unchecked read — out of bounds when `index ≥ len`)
and sets `ptr` to `start + index`.  Returns the byte and the new state. -/
def Source.advance (s : Source) (index : Nat) : Nat × Source :=
  (s.mem index, { s with pos := index })

/-- `Source::add(index)`: reads the byte at `ptr + index` without moving
(unchecked). -/
def Source.add (s : Source) (index : Nat) : Nat :=
  s.mem (s.pos + index)

/-- `Source::current`: the byte at `ptr` (unchecked). -/
def Source.current (s : Source) : Nat :=
  s.mem s.pos

/-- `Source::is_at_end`: `ptr >= end`. -/
def Source.is_at_end (s : Source) : Bool :=
  decide (s.len ≤ s.pos)

/-- `Source::peek` from `source.rs` lines 93-101: if `ptr < end`, returns
the byte at `ptr + 1` — note the bound that is checked is `ptr < end`,
not `ptr + 1 < end` — else `None`. -/
def Source.peek (s : Source) : Option Nat :=
  if s.pos < s.len then some (s.mem (s.pos + 1)) else none

/-- The bytes at offsets `a, a+1, ..., a+n-1` of the memory `mem` — the
embedding of `std::slice::from_raw_parts(start.add(a), n)`. -/
def readBytes (mem : Nat → Nat) : Nat → Nat → List Nat
  | _, 0 => []
  | a, n + 1 => mem a :: readBytes mem (a + 1) n

/-- `Source::get_slice(start, end)` from `source.rs` lines 103-106:
`len = end - start` bytes starting at offset `start`, with no bounds
check of any kind.  (`b - a` is Rust `usize` subtraction; the claims
proved about this function only concern `a ≤ b`, where `Nat` subtraction
agrees with it.) -/
def Source.get_slice (s : Source) (a b : Nat) : List Nat :=
  readBytes s.mem a (b - a)

/-- `Source::next_char` from `source.rs` lines 114-122: if `ptr < end`,
returns the byte at `ptr` (as a char, value preserved) and advances `ptr`
by one; else `None`, no movement. -/
def Source.next_char (s : Source) : Option Nat × Source :=
  if s.pos < s.len then (some (s.mem s.pos), { s with pos := s.pos + 1 })
  else (none, s)

/-- `Source::peek_char`: the byte at `ptr` if `ptr < end`, else `None`. -/
def Source.peek_char (s : Source) : Option Nat :=
  if s.pos < s.len then some (s.mem s.pos) else none

/-- `Span` from `token.rs` (field `end` renamed `stop`: reserved word). -/
structure Span where
  start : Nat
  stop : Nat
deriving DecidableEq

/-- `TokenKind` from `token.rs`. -/
inductive TokenKind
  | Plus
  | PlusEq
  | Identifier
  | Empty
deriving DecidableEq

/-- `Token` from `token.rs`. -/
structure Token where
  kind : TokenKind
  span : Span
deriving DecidableEq

/-- `Token::new` from `token.rs`: kind `Empty`, span `{0, 0}`. -/
def Token.new : Token :=
  ⟨TokenKind.Empty, ⟨0, 0⟩⟩

/-- The scan loop shared by both handlers of `identifier.rs`:
`while !is_at_end { let byte = read_byte(); if cond(byte) { index += 1 }
else { break } }`, returning the final scan position.  Structured with
explicit fuel so that it computes; the handlers pass `len - i` fuel,
which the loop can never exhaust early (each iteration moves `i` one
step closer to `len`, and the loop stops at `len` anyway). -/
def scanLoop (cond : Nat → Bool) (mem : Nat → Nat) (len : Nat) :
    Nat → Nat → Nat
  | 0, i => i
  | fuel + 1, i =>
    if i < len then
      if cond (mem i) then scanLoop cond mem len fuel (i + 1) else i
    else i

/-- `Lexer::identifier_handler` from `identifier.rs` lines 4-15: from scan
position `i`, consume bytes while `identCond` holds, stopping at the first
byte that fails it or at end of input; returns the final scan position. -/
def identifier_handler (mem : Nat → Nat) (len i : Nat) : Nat :=
  scanLoop identCond mem len (len - i) i

/-- The greedy alphanumeric run of `quoted_identifier_handler`: scan
position after consuming alphanumeric bytes starting at `i + 1` (the
byte after the opening backtick). -/
def quotedRun (mem : Nat → Nat) (len i : Nat) : Nat :=
  scanLoop isAsciiAlphanumeric mem len (len - (i + 1)) (i + 1)

/-- `Lexer::quoted_identifier_handler` from `identifier.rs` lines 17-33:
`bump()` consumes the opening backtick, the loop consumes alphanumeric
bytes, and the trailing `self.index += 1` consumes one more byte
unconditionally (intended to be the closing backtick, but performed
whether or not it is, and whether or not the input has ended). -/
def quoted_identifier_handler (mem : Nat → Nat) (len i : Nat) : Nat :=
  quotedRun mem len i + 1

/-- Modelled from the spec: `Lexer::next_token` lives in the crate's
`lib.rs`, which is not among the sources; this follows spec section 4.2
word for word.  At end of input, return the designated end-of-input token
(`Token::new`, kind `Empty`) without advancing.  Otherwise record
`start := offset()`, dispatch on the current byte — letter or underscore
to the identifier scan, backtick (byte 96) to the quoted-identifier scan
(both from `identifier.rs`, both classified `Identifier`, the only
identifier-like kind in `TokenKind`), `+` (byte 43) to the operator scan
(consume it; if the next byte is `=` (byte 61), consume that too and
reclassify `PlusEq` — maximal munch), and any other byte is consumed
alone as an uncategorized `Empty` token — then record `end := offset()`
and return `Token{kind, Span{start, end}}` with the advanced cursor. -/
def next_token (s : Source) : Token × Source :=
  if s.is_at_end then (Token.new, s)
  else
    let b := s.current
    if isIdentStart b then
      let p := identifier_handler s.mem s.len s.pos
      (⟨TokenKind.Identifier, ⟨s.pos, p⟩⟩, { s with pos := p })
    else if b == 96 then
      let p := quoted_identifier_handler s.mem s.len s.pos
      (⟨TokenKind.Identifier, ⟨s.pos, p⟩⟩, { s with pos := p })
    else if b == 43 then
      if decide (s.pos + 1 < s.len) && (s.mem (s.pos + 1) == 61) then
        (⟨TokenKind.PlusEq, ⟨s.pos, s.pos + 2⟩⟩, { s with pos := s.pos + 2 })
      else
        (⟨TokenKind.Plus, ⟨s.pos, s.pos + 1⟩⟩, { s with pos := s.pos + 1 })
    else
      (⟨TokenKind.Empty, ⟨s.pos, s.pos + 1⟩⟩, { s with pos := s.pos + 1 })

/-- The cursor state after one `next_token` call. -/
def nextState (s : Source) : Source :=
  (next_token s).2

/-- The cursor state after `n` calls to `next_token`. -/
def iterState : Nat → Source → Source
  | 0, s => s
  | n + 1, s => iterState n (nextState s)

/-- The tokens produced by repeated `next_token` calls until `is_at_end`,
with explicit fuel. -/
def tokensN : Nat → Source → List Token
  | 0, _ => []
  | n + 1, s =>
    if s.is_at_end then []
    else (next_token s).1 :: tokensN n (nextState s)

/-- All tokens of a full lexing pass over `s` (fuel `len - pos` suffices:
every call strictly advances the position). -/
def tokens (s : Source) : List Token :=
  tokensN (s.len - s.pos) s

/-- The run of the quoted-identifier scan starting at cursor position
`s.pos` is terminated by a closing backtick inside the buffer. -/
def quotedTerminated (s : Source) : Bool :=
  decide (quotedRun s.mem s.len s.pos < s.len) &&
    (s.mem (quotedRun s.mem s.len s.pos) == 96)

/-- Well-formed token start (spec sections 6 and 8: the span contract is
promised for well-formed tokens): the cursor is inside the buffer and the
current byte starts an identifier, a terminated quoted identifier, or a
`+` operator.  Uncategorized bytes and the end-of-input token carry no
lexeme. -/
def wellFormedAt (s : Source) : Bool :=
  decide (s.pos < s.len) &&
    (isIdentStart s.current ||
      ((s.current == 96) && quotedTerminated s) ||
      s.current == 43)

/-- A lexeme that justifies kind `Identifier` via the plain identifier
scan: nonempty, starting with a letter or underscore, all bytes
alphanumeric-or-underscore (spec section 4.2). -/
def isUnquotedIdentLexeme : List Nat → Bool
  | [] => false
  | b :: rest => isIdentStart b && (b :: rest).all isAlnumOrUnderscore

/-- A lexeme that justifies kind `Identifier` via the quoted-identifier
scan: an opening backtick, an alphanumeric run, a closing backtick
(spec sections 4.2 and 8). -/
def isQuotedIdentLexeme (l : List Nat) : Bool :=
  decide (2 ≤ l.length) && (l.head? == some 96) && (l.getLast? == some 96) &&
    ((l.drop 1).dropLast.all isAsciiAlphanumeric)

/-- The spec's lexeme contract (sections 6 and 8): which lexeme texts
justify each token kind. -/
def justifies : TokenKind → List Nat → Bool
  | TokenKind.Plus, l => l == [43]
  | TokenKind.PlusEq, l => l == [43, 61]
  | TokenKind.Identifier, l => isUnquotedIdentLexeme l || isQuotedIdentLexeme l
  | TokenKind.Empty, _ => false

/-! ## Helper lemmas about the scan loop -/

theorem scanLoop_ge (cond : Nat → Bool) (mem : Nat → Nat) (len : Nat) :
    ∀ fuel i, i ≤ scanLoop cond mem len fuel i := by
  intro fuel
  induction fuel with
  | zero => intro i; simp [scanLoop]
  | succ n ih =>
    intro i
    simp only [scanLoop]
    by_cases h1 : i < len
    · rw [if_pos h1]
      by_cases h2 : cond (mem i) = true
      · rw [if_pos h2]
        exact le_trans (Nat.le_succ i) (ih (i + 1))
      · rw [if_neg h2]
    · rw [if_neg h1]

theorem scanLoop_le_len (cond : Nat → Bool) (mem : Nat → Nat) (len : Nat) :
    ∀ fuel i, i ≤ len → scanLoop cond mem len fuel i ≤ len := by
  intro fuel
  induction fuel with
  | zero => intro i h; simpa [scanLoop] using h
  | succ n ih =>
    intro i h
    simp only [scanLoop]
    by_cases h1 : i < len
    · rw [if_pos h1]
      by_cases h2 : cond (mem i) = true
      · rw [if_pos h2]
        exact ih (i + 1) h1
      · rw [if_neg h2]; exact h
    · rw [if_neg h1]; exact h

theorem scanLoop_spec (cond : Nat → Bool) (mem : Nat → Nat) (len : Nat) :
    ∀ fuel i, len - i ≤ fuel →
      (∀ k, i ≤ k → k < scanLoop cond mem len fuel i →
        k < len ∧ cond (mem k) = true) ∧
      (len ≤ scanLoop cond mem len fuel i ∨
        cond (mem (scanLoop cond mem len fuel i)) = false) := by
  intro fuel
  induction fuel with
  | zero =>
    intro i hfuel
    have hi : len ≤ i := by omega
    constructor
    · intro k hk1 hk2
      simp only [scanLoop] at hk2
      omega
    · left; simpa [scanLoop] using hi
  | succ n ih =>
    intro i hfuel
    simp only [scanLoop]
    by_cases h1 : i < len
    · rw [if_pos h1]
      by_cases h2 : cond (mem i) = true
      · rw [if_pos h2]
        have hfuel' : len - (i + 1) ≤ n := by omega
        obtain ⟨ihall, ihstop⟩ := ih (i + 1) hfuel'
        constructor
        · intro k hk1 hk2
          by_cases hk : k = i
          · subst hk; exact ⟨h1, h2⟩
          · exact ihall k (by omega) hk2
        · exact ihstop
      · rw [if_neg h2]
        constructor
        · intro k hk1 hk2; omega
        · right; simpa using h2
    · rw [if_neg h1]
      constructor
      · intro k hk1 hk2; omega
      · left; omega

theorem scanLoop_progress (cond : Nat → Bool) (mem : Nat → Nat) (len i : Nat)
    (h1 : i < len) (h2 : cond (mem i) = true) :
    i + 1 ≤ scanLoop cond mem len (len - i) i := by
  have hfuel : len - i = (len - (i + 1)) + 1 := by omega
  rw [hfuel]
  simp only [scanLoop]
  rw [if_pos h1, if_pos h2]
  exact scanLoop_ge cond mem len (len - (i + 1)) (i + 1)

/-! ## Helper lemmas about `readBytes` -/

theorem readBytes_length (mem : Nat → Nat) :
    ∀ n a, (readBytes mem a n).length = n := by
  intro n
  induction n with
  | zero => intro a; rfl
  | succ k ih => intro a; simp [readBytes, ih]

theorem readBytes_snoc (mem : Nat → Nat) :
    ∀ n a, readBytes mem a (n + 1) = readBytes mem a n ++ [mem (a + n)] := by
  intro n
  induction n with
  | zero => intro a; simp [readBytes]
  | succ k ih =>
    intro a
    have h1 : readBytes mem a (k + 1 + 1) = mem a :: readBytes mem (a + 1) (k + 1) := rfl
    have h2 : readBytes mem a (k + 1) = mem a :: readBytes mem (a + 1) k := rfl
    rw [h1, ih (a + 1), h2]
    have hidx : a + 1 + k = a + (k + 1) := by omega
    rw [hidx]
    rfl

theorem readBytes_all (mem : Nat → Nat) (cond : Nat → Bool) :
    ∀ n a, (∀ k, k < n → cond (mem (a + k)) = true) →
      (readBytes mem a n).all cond = true := by
  intro n
  induction n with
  | zero => intro a _; rfl
  | succ m ih =>
    intro a h
    simp only [readBytes, List.all_cons, Bool.and_eq_true]
    constructor
    · simpa using h 0 (by omega)
    · exact ih (a + 1) (fun k hk => by
        have := h (k + 1) (by omega)
        simpa [Nat.add_assoc, Nat.add_comm 1 k] using this)

theorem readBytes_drop (mem : Nat → Nat) :
    ∀ d n a, d ≤ n → (readBytes mem a n).drop d = readBytes mem (a + d) (n - d) := by
  intro d
  induction d with
  | zero => intro n a _; simp
  | succ e ih =>
    intro n a h
    match n with
    | m + 1 =>
      have h1 : (readBytes mem a (m + 1)).drop (e + 1) =
          (readBytes mem (a + 1) m).drop e := rfl
      rw [h1, ih m (a + 1) (by omega)]
      have h2 : a + 1 + e = a + (e + 1) := by omega
      have h3 : m - e = m + 1 - (e + 1) := by omega
      rw [h2, h3]

theorem readBytes_take (mem : Nat → Nat) :
    ∀ t n a, t ≤ n → (readBytes mem a n).take t = readBytes mem a t := by
  intro t
  induction t with
  | zero => intro n a _; simp [readBytes]
  | succ e ih =>
    intro n a h
    match n with
    | m + 1 =>
      simp only [readBytes, List.take_succ_cons]
      rw [ih m (a + 1) (by omega)]

/-! ## Helper lemmas about byte predicates -/

theorem isAsciiAlphanumeric_ne_space (b : Nat)
    (h : isAsciiAlphanumeric b = true) : (b == 32) = false := by
  simp only [isAsciiAlphanumeric, isAsciiDigit, isAsciiUppercase,
    isAsciiLowercase, Bool.or_eq_true, Bool.and_eq_true,
    decide_eq_true_eq] at h
  rcases h with (⟨h1, h2⟩ | ⟨h1, h2⟩) | ⟨h1, h2⟩ <;>
    · have hne : b ≠ 32 := by omega
      simp [hne]

theorem identCond_eq_isAlnumOrUnderscore (b : Nat) :
    identCond b = isAlnumOrUnderscore b := by
  simp only [identCond, isAlnumOrUnderscore]
  by_cases h : isAsciiAlphanumeric b = true
  · simp [h, isAsciiAlphanumeric_ne_space b h]
  · simp only [Bool.not_eq_true] at h
    simp [h]

theorem isAsciiAlphabetic_alnum (b : Nat)
    (h : isAsciiAlphabetic b = true) : isAsciiAlphanumeric b = true := by
  simp only [isAsciiAlphabetic, Bool.or_eq_true] at h
  simp only [isAsciiAlphanumeric, Bool.or_eq_true]
  tauto

theorem isIdentStart_identCond (b : Nat)
    (h : isIdentStart b = true) : identCond b = true := by
  rw [identCond_eq_isAlnumOrUnderscore]
  simp only [isIdentStart, Bool.or_eq_true] at h
  simp only [isAlnumOrUnderscore, Bool.or_eq_true]
  rcases h with h | h
  · exact Or.inl (isAsciiAlphabetic_alnum b h)
  · exact Or.inr h

/-! ## Helper lemmas about `next_token` -/

theorem next_token_at_end (s : Source) (h : s.is_at_end = true) :
    next_token s = (Token.new, s) := by
  simp [next_token, h]

theorem next_token_mem (s : Source) : (next_token s).2.mem = s.mem := by
  simp only [next_token]
  repeat' split
  all_goals rfl

theorem next_token_len (s : Source) : (next_token s).2.len = s.len := by
  simp only [next_token]
  repeat' split
  all_goals rfl

theorem next_token_progress (s : Source) (h : s.is_at_end = false) :
    s.pos < (next_token s).2.pos := by
  have hlt : s.pos < s.len := by
    have h' := h
    simp only [Source.is_at_end, decide_eq_false_iff_not] at h'
    omega
  have hne : ¬(s.is_at_end = true) := by simp [h]
  simp only [next_token]
  rw [if_neg hne]
  by_cases h1 : isIdentStart s.current = true
  · rw [if_pos h1]
    show s.pos < identifier_handler s.mem s.len s.pos
    have hcond : identCond (s.mem s.pos) = true :=
      isIdentStart_identCond _ h1
    have := scanLoop_progress identCond s.mem s.len s.pos hlt hcond
    simp only [identifier_handler]
    omega
  · rw [if_neg h1]
    by_cases h2 : (s.current == 96) = true
    · rw [if_pos h2]
      show s.pos < quoted_identifier_handler s.mem s.len s.pos
      have := scanLoop_ge isAsciiAlphanumeric s.mem s.len
        (s.len - (s.pos + 1)) (s.pos + 1)
      simp only [quoted_identifier_handler, quotedRun]
      omega
    · rw [if_neg h2]
      by_cases h3 : (s.current == 43) = true
      · rw [if_pos h3]
        by_cases h4 : (decide (s.pos + 1 < s.len) && (s.mem (s.pos + 1) == 61)) = true
        · rw [if_pos h4]
          show s.pos < s.pos + 2
          omega
        · rw [if_neg h4]
          show s.pos < s.pos + 1
          omega
      · rw [if_neg h3]
        show s.pos < s.pos + 1
        omega

theorem iterState_at_end (n : Nat) (s : Source) (h : s.is_at_end = true) :
    iterState n s = s := by
  induction n with
  | zero => rfl
  | succ m ih =>
    have hstep : nextState s = s := by
      simp [nextState, next_token_at_end s h]
    calc iterState (m + 1) s = iterState m (nextState s) := rfl
    _ = iterState m s := by rw [hstep]
    _ = s := ih

theorem iterState_reaches_end :
    ∀ n (s : Source), s.len - s.pos ≤ n → (iterState n s).is_at_end = true := by
  intro n
  induction n with
  | zero =>
    intro s h
    simp only [iterState, Source.is_at_end, decide_eq_true_eq]
    omega
  | succ m ih =>
    intro s h
    by_cases hs : s.is_at_end = true
    · rw [iterState_at_end (m + 1) s hs]; exact hs
    · have hs' : s.is_at_end = false := by simpa using hs
      have hprog := next_token_progress s hs'
      have hlen := next_token_len s
      have : (nextState s).len - (nextState s).pos ≤ m := by
        simp only [nextState] at *
        omega
      exact ih (nextState s) this

theorem tokensN_length_le : ∀ n (s : Source), (tokensN n s).length ≤ n := by
  intro n
  induction n with
  | zero => intro s; simp [tokensN]
  | succ m ih =>
    intro s
    simp only [tokensN]
    split
    · simp
    · simpa using Nat.succ_le_succ (ih (nextState s))

theorem identifier_handler_spec (mem : Nat → Nat) (len i : Nat) :
    i ≤ identifier_handler mem len i ∧
    (∀ k, i ≤ k → k < identifier_handler mem len i →
      k < len ∧ identCond (mem k) = true) ∧
    (len ≤ identifier_handler mem len i ∨
      identCond (mem (identifier_handler mem len i)) = false) := by
  unfold identifier_handler
  obtain ⟨hall, hstop⟩ := scanLoop_spec identCond mem len (len - i) i le_rfl
  exact ⟨scanLoop_ge _ _ _ _ _, hall, hstop⟩

theorem identifier_handler_le_len (mem : Nat → Nat) (len i : Nat)
    (h : i ≤ len) : identifier_handler mem len i ≤ len :=
  scanLoop_le_len identCond mem len (len - i) i h

theorem identifier_handler_progress (mem : Nat → Nat) (len i : Nat)
    (h1 : i < len) (h2 : identCond (mem i) = true) :
    i + 1 ≤ identifier_handler mem len i :=
  scanLoop_progress identCond mem len i h1 h2

theorem quotedRun_spec (mem : Nat → Nat) (len i : Nat) :
    i + 1 ≤ quotedRun mem len i ∧
    (∀ k, i + 1 ≤ k → k < quotedRun mem len i →
      k < len ∧ isAsciiAlphanumeric (mem k) = true) ∧
    (len ≤ quotedRun mem len i ∨
      isAsciiAlphanumeric (mem (quotedRun mem len i)) = false) := by
  unfold quotedRun
  obtain ⟨hall, hstop⟩ :=
    scanLoop_spec isAsciiAlphanumeric mem len (len - (i + 1)) (i + 1) le_rfl
  exact ⟨scanLoop_ge _ _ _ _ _, hall, hstop⟩

/-! ## Claim theorems -/

/-- C10: for every `Source`, if `is_at_end` holds then `next_char` returns
`none` and leaves the position unchanged; otherwise it returns the byte at
the current position (the `u8 as char` cast preserves the numeric value)
and advances the position by exactly one byte; the buffer is untouched
either way. -/
theorem C10_next_char_contract (s : Source) :
    (s.next_char).1 = (if s.is_at_end then none else some (s.mem s.pos)) ∧
    (s.next_char).2.pos = (if s.is_at_end then s.pos else s.pos + 1) ∧
    (s.next_char).2.mem = s.mem ∧ (s.next_char).2.len = s.len := by
  by_cases h : s.pos < s.len
  · have hend : s.is_at_end = false := by
      simp only [Source.is_at_end, decide_eq_false_iff_not]
      omega
    simp [Source.next_char, h, hend]
  · have hend : s.is_at_end = true := by
      simp only [Source.is_at_end, decide_eq_true_eq]
      omega
    simp [Source.next_char, h, hend]

/-- C6 (code bug): the claim — and the spec — say `peek_next` returns the
byte at `position + 1` only when `position + 1` is in bounds and `none`
otherwise, but the code checks `ptr < end` instead of `ptr + 1 < end`.
On the one-byte source "a" (byte 97) at position 0, `position + 1 = 1` is
out of bounds and the claimed result is `none`; the code instead returns
the byte one past the end of the buffer: with adjacent memory holding 213
it returns `some 213`, with adjacent memory holding 7 it returns
`some 7` — a silent out-of-bounds read. -/
theorem C6_peek_reads_past_end :
    (Source.ofListPad [97] 213).peek = some 213 ∧
    (Source.ofListPad [97] 7).peek = some 7 :=
  ⟨rfl, rfl⟩

/-- C7 is false as stated: `advance` is absolute, not relative, not
clamped, and not a no-op past the end.  From position 1 in the two-byte
buffer "ab", `advance 1` leaves the position at 1 instead of moving it
forward to 2; from position 2 (already at the end) `advance 0` moves the
position back to 0 instead of leaving the state unchanged; and `advance 5`
sets the position to 5, beyond the length 2 instead of clamping at 2. -/
theorem C7_advance_counterexample :
    ((⟨fun i => [97, 98].getD i 0, 2, 1⟩ : Source).advance 1).2.pos = 1 ∧
    ((⟨fun i => [97, 98].getD i 0, 2, 2⟩ : Source).advance 0).2.pos = 0 ∧
    ((Source.ofList [97, 98]).advance 5).2.pos = 5 :=
  ⟨rfl, rfl, rfl⟩

/-- C7 (amended): `advance(index)` sets the position to the absolute
offset `index` — not forward by `index` — with no clamping (the position
may exceed `text.length`, and the state changes even when already past
the end), and returns the byte read at offset `index` (an unchecked read,
out of bounds when `index ≥ len`).  The buffer itself is untouched. -/
theorem C7_advance_absolute (s : Source) (index : Nat) :
    (s.advance index).2.pos = index ∧
    (s.advance index).2.get_current_pos = index ∧
    (s.advance index).1 = s.mem index ∧
    (s.advance index).2.mem = s.mem ∧
    (s.advance index).2.len = s.len :=
  ⟨rfl, rfl, rfl, rfl, rfl⟩

/-- C8 (amended): under the precondition `start ≤ end ≤ text.length`,
`get_slice` returns exactly the byte range `[start, end)` of the original
source text (the first `len` bytes of memory); but a violating call is
not a detected contract error — the code performs no check at all and
silently reads out of bounds (see the counterexample theorem). -/
theorem C8_get_slice_in_bounds (s : Source) (a b : Nat)
    (hab : a ≤ b) (hb : b ≤ s.len) :
    s.get_slice a b = ((readBytes s.mem 0 s.len).drop a).take (b - a) := by
  rw [readBytes_drop s.mem a s.len 0 (le_trans hab hb),
    readBytes_take s.mem (b - a) (s.len - a) (0 + a) (by omega)]
  simp [Source.get_slice]

/-- Witness for C8 at the two-byte source "ab" with the in-bounds range
[0, 2). -/
theorem C8_get_slice_in_bounds_witness :
    ((0 : Nat) ≤ 2 ∧ 2 ≤ (Source.ofList [97, 98]).len) ∧
    (Source.ofList [97, 98]).get_slice 0 2 =
      ((readBytes (Source.ofList [97, 98]).mem 0
        (Source.ofList [97, 98]).len).drop 0).take (2 - 0) :=
  ⟨⟨by decide, by decide⟩,
    C8_get_slice_in_bounds (Source.ofList [97, 98]) 0 2 (by decide) (by decide)⟩

/-- C8 is false in its error-handling half: a call violating the
precondition (`end = 3 > len = 2` on the two-byte buffer "ab") is not
detected — `get_slice` silently returns three bytes, the third read from
beyond the buffer.  Two sources carrying the same two-byte text but
different adjacent memory yield different results, so the violating call
is a silent out-of-bounds read, not a contract error. -/
theorem C8_get_slice_counterexample :
    (Source.ofListPad [97, 98] 5).get_slice 0 3 = [97, 98, 5] ∧
    (Source.ofListPad [97, 98] 9).get_slice 0 3 = [97, 98, 9] ∧
    readBytes (Source.ofListPad [97, 98] 5).mem 0 2 =
      readBytes (Source.ofListPad [97, 98] 9).mem 0 2 :=
  ⟨rfl, rfl, rfl⟩

/-- C2: lexing any finite input terminates.  Every `next_token` call from
a state not at end of input strictly advances the position; after at most
`len - pos` calls the cursor is at end of input; a full pass produces at
most `len - pos` tokens; and once `at_end` holds, every further call
returns the end-of-input token (kind `Empty`) and leaves the state
unchanged, so `at_end` remains true forever. -/
theorem C2_termination (s : Source) (n : Nat) :
    (s.is_at_end = true ∨ s.pos < (next_token s).2.pos) ∧
    (iterState (s.len - s.pos) s).is_at_end = true ∧
    (tokens s).length ≤ s.len - s.pos ∧
    (s.is_at_end = false ∨
      ((next_token s).1.kind = TokenKind.Empty ∧ iterState n s = s)) := by
  refine ⟨?_, ?_, ?_, ?_⟩
  · by_cases h : s.is_at_end = true
    · exact Or.inl h
    · exact Or.inr (next_token_progress s (by simpa using h))
  · exact iterState_reaches_end (s.len - s.pos) s le_rfl
  · exact tokensN_length_le (s.len - s.pos) s
  · by_cases h : s.is_at_end = true
    · refine Or.inr ⟨?_, iterState_at_end n s h⟩
      rw [next_token_at_end s h]
      rfl
    · exact Or.inl (by simpa using h)

/-- C4: lexing the input "+=" yields exactly one token, of kind `PlusEq`,
spanning both bytes `[0, 2)` — never a `Plus` token followed by a
separate token for the `=` byte (maximal munch: the longest match
wins). -/
theorem C4_maximal_munch :
    tokens (Source.ofString "+=") = [⟨TokenKind.PlusEq, ⟨0, 2⟩⟩] :=
  rfl

/-- C5: the quoted-identifier scan consumes the opening backtick (the
alphanumeric run starts at `i + 1`), greedily consumes the maximal run of
consecutive ASCII-alphanumeric bytes — every byte of the run is inside
the buffer and alphanumeric, and the run ends at end of input or at the
first non-alphanumeric byte — and then unconditionally consumes one more
byte (the final `+ 1`), with no condition whatsoever on that byte being a
closing backtick or on the input not having ended. -/
theorem C5_quoted_scan (mem : Nat → Nat) (len i : Nat) :
    ∃ r, quoted_identifier_handler mem len i = r + 1 ∧
      i + 1 ≤ r ∧
      (readBytes mem (i + 1) (r - (i + 1))).all isAsciiAlphanumeric = true ∧
      (len ≤ r ∨ isAsciiAlphanumeric (mem r) = false) := by
  obtain ⟨hge, hall, hstop⟩ := quotedRun_spec mem len i
  refine ⟨quotedRun mem len i, rfl, hge, ?_, hstop⟩
  exact readBytes_all mem isAsciiAlphanumeric _ (i + 1)
    (fun k hk => (hall (i + 1 + k) (by omega) (by omega)).2)

/-- C9: for the input "abc123 def", the token stream is `Identifier`
spanning `[0, 6)` ("abc123"), then an uncategorized token for the space
`[6, 7)` (the byte at offset 6 was not consumed by the identifier scan
and is re-examined by the next `next_token` call), then `Identifier`
spanning `[7, 10)`; and in general the identifier scan consumes only
bytes satisfying `is_alphanumeric_or_underscore` (all inside the buffer)
and stops at end of input or at the first byte that does not qualify,
leaving that byte unconsumed. -/
theorem C9_identifier_boundary :
    tokens (Source.ofString "abc123 def") =
      [⟨TokenKind.Identifier, ⟨0, 6⟩⟩, ⟨TokenKind.Empty, ⟨6, 7⟩⟩,
        ⟨TokenKind.Identifier, ⟨7, 10⟩⟩] ∧
    ∀ (mem : Nat → Nat) (len i : Nat),
      i ≤ identifier_handler mem len i ∧
      (readBytes mem i (identifier_handler mem len i - i)).all
        isAlnumOrUnderscore = true ∧
      (len ≤ identifier_handler mem len i ∨
        isAlnumOrUnderscore (mem (identifier_handler mem len i)) = false) := by
  refine ⟨rfl, fun mem len i => ?_⟩
  obtain ⟨hge, hall, hstop⟩ := identifier_handler_spec mem len i
  refine ⟨hge, ?_, ?_⟩
  · refine readBytes_all mem isAlnumOrUnderscore _ i (fun k hk => ?_)
    have h := (hall (i + k) (by omega) (by omega)).2
    rwa [identCond_eq_isAlnumOrUnderscore] at h
  · rcases hstop with h | h
    · exact Or.inl h
    · right
      rwa [identCond_eq_isAlnumOrUnderscore] at h

theorem isQuotedIdentLexeme_shape (core : List Nat)
    (hcore : core.all isAsciiAlphanumeric = true) :
    isQuotedIdentLexeme (96 :: (core ++ [96])) = true := by
  have hlast : (96 :: (core ++ [96])).getLast? = some 96 := by
    rw [← List.cons_append]
    exact List.getLast?_concat _
  have hdrop : ((96 :: (core ++ [96])).drop 1).dropLast = core := by
    simp [List.dropLast_concat]
  simp [isQuotedIdentLexeme, hlast, hdrop, hcore]

/-- C3 is false as stated, in two ways.  (1) Lexing the two-byte input
holding a backtick then "a" — an unterminated quoted identifier — runs
the alphanumeric scan to end of input and then unconditionally consumes
one more byte, producing a span with end = 3 and cursor position 3,
beyond the source length 2.  (2) `advance 5` on the two-byte source "ab"
sets the cursor position to 5 > 2. -/
theorem C3_invariant_counterexample :
    (next_token (Source.ofList [96, 97])).1.span.stop = 3 ∧
    (next_token (Source.ofList [96, 97])).2.pos = 3 ∧
    (Source.ofList [96, 97]).len = 2 ∧
    ((Source.ofList [97, 98]).advance 5).2.pos = 5 ∧
    (Source.ofList [97, 98]).len = 2 :=
  ⟨rfl, rfl, rfl, rfl, rfl⟩

/-- C3 (amended): starting from a cursor position within bounds at a
well-formed token start (identifier start, terminated quoted identifier,
or `+`), the produced span satisfies `start ≤ end ≤ source.length` and
the new cursor position again satisfies `position ≤ text.length` (the
`0 ≤` parts are automatic for unsigned offsets).  The invariant is not
preserved by the quoted-identifier scan on unterminated input nor by
`advance` with an out-of-range index (see the counterexample). -/
theorem C3_invariant_well_formed (s : Source) (hpos : s.pos ≤ s.len)
    (hwf : wellFormedAt s = true) :
    (next_token s).1.span.start ≤ (next_token s).1.span.stop ∧
    (next_token s).1.span.stop ≤ s.len ∧
    (next_token s).2.pos ≤ s.len := by
  have hwf' := hwf
  simp only [wellFormedAt, Bool.and_eq_true, Bool.or_eq_true,
    decide_eq_true_eq] at hwf'
  obtain ⟨hlt, hcat⟩ := hwf'
  have hne : ¬(s.is_at_end = true) := by
    simp only [Source.is_at_end, decide_eq_true_eq]
    omega
  simp only [next_token]
  rw [if_neg hne]
  rcases hcat with (hA | ⟨hB, hQ⟩) | hC
  · rw [if_pos hA]
    show s.pos ≤ identifier_handler s.mem s.len s.pos ∧
      identifier_handler s.mem s.len s.pos ≤ s.len ∧
      identifier_handler s.mem s.len s.pos ≤ s.len
    have h1 := (identifier_handler_spec s.mem s.len s.pos).1
    have h2 := identifier_handler_le_len s.mem s.len s.pos hpos
    exact ⟨h1, h2, h2⟩
  · have hcur : s.current = 96 := by simpa using hB
    have hA' : ¬(isIdentStart s.current = true) := by rw [hcur]; decide
    rw [if_neg hA', if_pos hB]
    show s.pos ≤ quoted_identifier_handler s.mem s.len s.pos ∧
      quoted_identifier_handler s.mem s.len s.pos ≤ s.len ∧
      quoted_identifier_handler s.mem s.len s.pos ≤ s.len
    simp only [quotedTerminated, Bool.and_eq_true, decide_eq_true_eq] at hQ
    obtain ⟨hRlt, _⟩ := hQ
    have hge := (quotedRun_spec s.mem s.len s.pos).1
    simp only [quoted_identifier_handler]
    omega
  · have hcur : s.current = 43 := by simpa using hC
    have hA' : ¬(isIdentStart s.current = true) := by rw [hcur]; decide
    have hB' : ¬((s.current == 96) = true) := by rw [hcur]; decide
    rw [if_neg hA', if_neg hB', if_pos hC]
    by_cases h4 : (decide (s.pos + 1 < s.len) && (s.mem (s.pos + 1) == 61)) = true
    · rw [if_pos h4]
      have hp1 : s.pos + 1 < s.len := by
        simp only [Bool.and_eq_true, decide_eq_true_eq] at h4
        exact h4.1
      show s.pos ≤ s.pos + 2 ∧ s.pos + 2 ≤ s.len ∧ s.pos + 2 ≤ s.len
      omega
    · rw [if_neg h4]
      show s.pos ≤ s.pos + 1 ∧ s.pos + 1 ≤ s.len ∧ s.pos + 1 ≤ s.len
      omega

/-- Witness for C3 (amended) at the two-byte source "ab": position 0 is
in bounds and starts a well-formed identifier token. -/
theorem C3_invariant_well_formed_witness :
    ((Source.ofString "ab").pos ≤ (Source.ofString "ab").len ∧
      wellFormedAt (Source.ofString "ab") = true) ∧
    ((next_token (Source.ofString "ab")).1.span.start ≤
        (next_token (Source.ofString "ab")).1.span.stop ∧
      (next_token (Source.ofString "ab")).1.span.stop ≤
        (Source.ofString "ab").len ∧
      (next_token (Source.ofString "ab")).2.pos ≤ (Source.ofString "ab").len) :=
  ⟨⟨by decide, by decide⟩,
    C3_invariant_well_formed (Source.ofString "ab") (by decide) (by decide)⟩

/-- C1: every token produced by `next_token` from a well-formed token
start carries a span whose half-open byte range `[start, end)`, sliced
from the original source via `get_slice`, is exactly the lexeme that
justifies the token's kind: `[43]` for `Plus`, `[43, 61]` for `PlusEq`,
and for `Identifier` either a letter/underscore-led run of
alphanumeric-or-underscore bytes or a backtick-delimited alphanumeric
run including both backticks. -/
theorem C1_span_contract (s : Source) (hwf : wellFormedAt s = true) :
    justifies (next_token s).1.kind
      (s.get_slice (next_token s).1.span.start (next_token s).1.span.stop)
      = true := by
  have hwf' := hwf
  simp only [wellFormedAt, Bool.and_eq_true, Bool.or_eq_true,
    decide_eq_true_eq] at hwf'
  obtain ⟨hlt, hcat⟩ := hwf'
  have hne : ¬(s.is_at_end = true) := by
    simp only [Source.is_at_end, decide_eq_true_eq]
    omega
  simp only [next_token]
  rw [if_neg hne]
  rcases hcat with (hA | ⟨hB, hQ⟩) | hC
  · -- plain identifier
    rw [if_pos hA]
    show justifies TokenKind.Identifier
      (s.get_slice s.pos (identifier_handler s.mem s.len s.pos)) = true
    obtain ⟨hge, hall, hstop⟩ := identifier_handler_spec s.mem s.len s.pos
    have hprog : s.pos + 1 ≤ identifier_handler s.mem s.len s.pos :=
      identifier_handler_progress s.mem s.len s.pos hlt
        (isIdentStart_identCond _ hA)
    set r := identifier_handler s.mem s.len s.pos with hr
    have hlen : r - s.pos = (r - s.pos - 1) + 1 := by omega
    simp only [justifies, Source.get_slice, Bool.or_eq_true]
    left
    rw [hlen]
    simp only [readBytes, isUnquotedIdentLexeme, Bool.and_eq_true]
    constructor
    · exact hA
    · show (readBytes s.mem s.pos ((r - s.pos - 1) + 1)).all
        isAlnumOrUnderscore = true
      rw [← hlen]
      refine readBytes_all s.mem isAlnumOrUnderscore _ s.pos (fun k hk => ?_)
      have h := (hall (s.pos + k) (by omega) (by omega)).2
      rwa [identCond_eq_isAlnumOrUnderscore] at h
  · -- quoted identifier, terminated
    have hcur : s.current = 96 := by simpa using hB
    have hA' : ¬(isIdentStart s.current = true) := by rw [hcur]; decide
    rw [if_neg hA', if_pos hB]
    show justifies TokenKind.Identifier
      (s.get_slice s.pos (quoted_identifier_handler s.mem s.len s.pos)) = true
    simp only [quotedTerminated, Bool.and_eq_true, decide_eq_true_eq] at hQ
    obtain ⟨hRlt, hRtick⟩ := hQ
    have hRtick' : s.mem (quotedRun s.mem s.len s.pos) = 96 := by
      simpa using hRtick
    obtain ⟨hge, hall, hstop⟩ := quotedRun_spec s.mem s.len s.pos
    set R := quotedRun s.mem s.len s.pos with hR
    have hmempos : s.mem s.pos = 96 := hcur
    have hqih : quoted_identifier_handler s.mem s.len s.pos = R + 1 := rfl
    have hlen : R + 1 - s.pos = (R - (s.pos + 1)) + 2 := by omega
    simp only [justifies, Source.get_slice, Bool.or_eq_true]
    right
    rw [hqih, hlen]
    have hdec : readBytes s.mem s.pos ((R - (s.pos + 1)) + 2) =
        96 :: (readBytes s.mem (s.pos + 1) (R - (s.pos + 1)) ++ [96]) := by
      have h1 : readBytes s.mem s.pos ((R - (s.pos + 1)) + 2) =
          s.mem s.pos :: readBytes s.mem (s.pos + 1) ((R - (s.pos + 1)) + 1) := rfl
      rw [h1, readBytes_snoc]
      have h2 : s.pos + 1 + (R - (s.pos + 1)) = R := by omega
      rw [h2, hmempos, hRtick']
    rw [hdec]
    refine isQuotedIdentLexeme_shape _ ?_
    refine readBytes_all s.mem isAsciiAlphanumeric _ (s.pos + 1) (fun k hk => ?_)
    exact (hall (s.pos + 1 + k) (by omega) (by omega)).2
  · -- plus / plus-equals
    have hcur : s.current = 43 := by simpa using hC
    have hA' : ¬(isIdentStart s.current = true) := by rw [hcur]; decide
    have hB' : ¬((s.current == 96) = true) := by rw [hcur]; decide
    rw [if_neg hA', if_neg hB', if_pos hC]
    have hmempos : s.mem s.pos = 43 := hcur
    by_cases h4 : (decide (s.pos + 1 < s.len) && (s.mem (s.pos + 1) == 61)) = true
    · rw [if_pos h4]
      have heq : s.mem (s.pos + 1) = 61 := by
        simp only [Bool.and_eq_true, beq_iff_eq] at h4
        exact h4.2
      show justifies TokenKind.PlusEq (s.get_slice s.pos (s.pos + 2)) = true
      have h2 : s.pos + 2 - s.pos = 2 := by omega
      simp only [justifies, Source.get_slice, h2]
      have hb : readBytes s.mem s.pos 2 = [s.mem s.pos, s.mem (s.pos + 1)] := rfl
      rw [hb, hmempos, heq]
      decide
    · rw [if_neg h4]
      show justifies TokenKind.Plus (s.get_slice s.pos (s.pos + 1)) = true
      have h2 : s.pos + 1 - s.pos = 1 := by omega
      simp only [justifies, Source.get_slice, h2]
      have hb : readBytes s.mem s.pos 1 = [s.mem s.pos] := rfl
      rw [hb, hmempos]
      decide

/-- Witness for C1 at the source "+=": a well-formed `PlusEq` token whose
sliced span is exactly the bytes of "+=". -/
theorem C1_span_contract_witness :
    wellFormedAt (Source.ofString "+=") = true ∧
    justifies (next_token (Source.ofString "+=")).1.kind
      ((Source.ofString "+=").get_slice
        (next_token (Source.ofString "+=")).1.span.start
        (next_token (Source.ofString "+=")).1.span.stop) = true :=
  ⟨by decide, C1_span_contract (Source.ofString "+=") (by decide)⟩

end PklLexer
